/-
Verification of the loudfixer loudness-compliance engine (src/main.go).

The development shallowly embeds the decision logic of the program:

* the integrated-loudness extraction regex
  `(?i)i:\s*(-\d+.\d|\d+.\d)\sLUFS` (main.go line 161) together with
  Go's `FindAllStringSubmatch` scan semantics (leftmost match, greedy
  preference inside a match, non-overlapping continuation after each
  match);
* `strconv.ParseFloat` restricted to the finite decimal forms that the
  capture group of that regex can produce (float64 values are modelled
  as exact rationals; see the comment on `goParseFloat`);
* `checkFileLoudness` (main.go lines 153-188);
* the audio-stream selection loop of `main` (lines 216-237);
* the output-path derivation (lines 260-264) over a model of Go's
  `path` package;
* the `%.1f` gain formatting (lines 257 and 328-329).
-/
import Mathlib

set_option maxRecDepth 100000

namespace Loudfixer

/-! ### Character classes of the Go regexp engine

`\d` is `[0-9]`, `\s` is `[\t\n\f\r ]`, and `.` matches any character
except newline (the `s` flag is not set in main.go's pattern). -/

def isGoDigit (c : Char) : Bool := '0' ≤ c && c ≤ '9'

def isGoSpace (c : Char) : Bool :=
  c == '\t' || c == '\n' || c == '\x0c' || c == '\r' || c == ' '

/-! ### The measurement regex of main.go line 161

The pattern is `(?i)i:\s*(-\d+.\d|\d+.\d)\sLUFS`.  Note two details of
the source pattern: the dot between `\d+` and `\d` is *unescaped*, so it
matches any non-newline character, and a *single* `\s` (not `\s*`)
separates the captured group from `LUFS`.

`checkTail l k` attempts the suffix of the group and the tail of the
pattern at digit-count `k`: `k` digits consumed by `\d+`, then the
unescaped dot, one digit, exactly one whitespace and the literal
`lufs` (the subject string has already been lower-cased, see
`checkFileLoudness`).  It returns the group characters (without the
optional minus) and the unconsumed remainder of the subject. -/

def checkTail (l : List Char) (k : Nat) : Option (List Char × List Char) :=
  if (l.take k).all isGoDigit then
    match l.drop k with
    | c :: d :: s :: 'l' :: 'u' :: 'f' :: 's' :: rest =>
      if c ≠ '\n' ∧ isGoDigit d ∧ isGoSpace s then some (l.take (k + 2), rest)
      else none
    | _ => none
  else none

/-- Backtracking preference order of a greedy `\d+`: the engine tries the
longest digit run first and shortens it on failure; a run of length zero
is not allowed. -/
def tryK (l : List Char) : Nat → Option (List Char × List Char)
  | 0 => none
  | k + 1 =>
    match checkTail l (k + 1) with
    | some r => some r
    | none => tryK l k

/-- Match the group body `\d+.\d` plus the pattern tail `\sLUFS`
starting at `l` (which is positioned after the optional minus sign). -/
def matchGroupFrom (l : List Char) : Option (List Char × List Char) :=
  tryK l (l.takeWhile isGoDigit).length

/-- Match the whole pattern at the head of `l`: literal `i:`, then `\s*`
(the group starts with `-` or a digit, neither of which is whitespace,
so the greedy `\s*` deterministically takes the maximal run), then the
alternation `(-\d+.\d|\d+.\d)` — deterministic on whether the next
character is `-` — and the tail.  Parameterised by the group matcher so
the same front end serves the amended specification matcher below. -/
def patMatchAtWith (grp : List Char → Option (List Char × List Char)) :
    List Char → Option (List Char × List Char)
  | 'i' :: ':' :: rest =>
    match rest.dropWhile isGoSpace with
    | '-' :: rest2 =>
      match grp rest2 with
      | some gr => some ('-' :: gr.1, gr.2)
      | none => none
    | rest1 => grp rest1
  | _ => none

def matchPatAt : List Char → Option (List Char × List Char) :=
  patMatchAtWith matchGroupFrom

/-- `FindAllStringSubmatch` scan: try each position left to right; after
a successful (never empty) match continue from its end.  The fuel is the
length of the subject; every step either consumes one character or an
entire match (at least nine characters), so fuel equal to the initial
length is never exhausted — see `findAllAuxWith_fuel` below. -/
def findAllAuxWith (m : List Char → Option (List Char × List Char)) :
    Nat → List Char → List (List Char)
  | 0, _ => []
  | _ + 1, [] => []
  | fuel + 1, a :: t =>
    match m (a :: t) with
    | some gr => gr.1 :: findAllAuxWith m fuel gr.2
    | none => findAllAuxWith m fuel t

def findAllMatches (l : List Char) : List (List Char) :=
  findAllAuxWith matchPatAt l.length l

/-- main.go line 159 applies `strings.ToLower` before matching (ASCII
case mapping; Go's Unicode simple case mapping agrees on ASCII). -/
def lowerChars (s : String) : List Char := s.data.map Char.toLower

/-- The list of captured group substrings (`result[i][1]` in Go),
in document order. -/
def matchesOf (s : String) : List String :=
  (findAllMatches (lowerChars s)).map (fun g => String.mk g)

/-! ### strconv.ParseFloat, for 64-bit floats

Modelled over exact rationals.  The decimal path of `readFloat` is
embedded faithfully (mantissa with at most one dot, optional `e`/`E`
exponent, underscores validated by `underscoreOK`), and a result that Go
would round to `±Inf` (overflow) or to `0` from a nonzero value
(underflow) is mapped to `none`, because Go reports `ErrRange` for it
and the caller in main.go only inspects `err != nil`.  Go additionally
accepts `inf`/`infinity`/`nan` and hexadecimal floats (`0x…p…`); those
forms have no exact rational value and are returned as `none` here —
no string matched by the capture group `(-\d+.\d|\d+.\d)` can take one
of those forms (a capture starts with `-` or a digit and a hexadecimal
float needs a `p` exponent the shape cannot contain), so the model
agrees with Go on every string the program can pass to ParseFloat.
Rounding of an in-range decimal to the nearest float64 is dropped: the
program only compares the value against the integers -26, -24, -23 and
-22 and every capturable decimal is either exactly such an integer or
farther from it than the rounding error. -/

def digitsVal (l : List Char) : Nat :=
  l.foldl (fun a c => 10 * a + (c.toNat - 48)) 0

/-- The mantissa loop of `readFloat`: consume digits, at most one dot
and (position-unchecked) underscores; stop at anything else.  Returns
the integer digits, the fraction digits and the unconsumed rest. -/
def goMantissa : List Char → Bool → List Char → List Char →
    List Char × List Char × List Char
  | [], _, ip, fp => (ip, fp, [])
  | c :: t, sawdot, ip, fp =>
    if c = '_' then goMantissa t sawdot ip fp
    else if c = '.' then
      (if sawdot then (ip, fp, c :: t) else goMantissa t true ip fp)
    else if isGoDigit c then
      (if sawdot then goMantissa t sawdot ip (fp ++ [c])
       else goMantissa t sawdot (ip ++ [c]) fp)
    else (ip, fp, c :: t)

def readExpDigits : List Char → Nat → Option Nat
  | [], e => some e
  | c :: t, e =>
    if isGoDigit c then readExpDigits t (10 * e + (c.toNat - 48))
    else if c = '_' then readExpDigits t e
    else none

/-- Exponent part after the `e`: optional sign, then at least one digit,
then digits and underscores up to the end of the string.  (Go caps the
accumulated exponent at 10000; an exponent at or beyond the cap makes
any nonzero value over- or underflow both with and without the cap, so
the cap is semantically irrelevant and omitted.) -/
def parseExp (l : List Char) : Option Int :=
  match l with
  | [] => none
  | _ =>
    let se : Int × List Char :=
      match l with
      | '+' :: t => (1, t)
      | '-' :: t => (-1, t)
      | t => (1, t)
    match se.2 with
    | c :: t =>
      if isGoDigit c then (readExpDigits t (c.toNat - 48)).map (fun e => se.1 * e)
      else none
    | [] => none

/-- `underscoreOK` from strconv: every underscore must sit between
digits (or follow a base prefix).  `saw` tracks the class of the last
character: `^` start, `0` digit, `_` underscore, `!` other. -/
def underscoreOKAux : List Char → Char → Bool → Bool
  | [], saw, _ => saw != '_'
  | c :: t, saw, hex =>
    if ('0' ≤ c && c ≤ '9') || (hex && 'a' ≤ c.toLower && c.toLower ≤ 'f') then
      underscoreOKAux t '0' hex
    else if c = '_' then
      (if saw = '0' then underscoreOKAux t '_' hex else false)
    else if saw = '_' then false
    else underscoreOKAux t '!' hex

def underscoreOK (l : List Char) : Bool :=
  let l1 :=
    match l with
    | '-' :: t => t
    | '+' :: t => t
    | t => t
  match l1 with
  | '0' :: b :: t =>
    if b.toLower = 'b' ∨ b.toLower = 'o' ∨ b.toLower = 'x' then
      underscoreOKAux t '0' (b.toLower = 'x')
    else underscoreOKAux l1 '^' false
  | _ => underscoreOKAux l1 '^' false

/-- Largest finite float64 plus half an ulp: decimal values whose
magnitude reaches this bound round to infinity, which Go reports as a
range error.  (Stated with `Nat.pow` and `mkRat` so that the kernel can
evaluate it; the value is the rational `2 ^ 1024 - 2 ^ 970`.) -/
def float64OverflowBound : ℚ := mkRat (Int.ofNat (Nat.pow 2 1024 - Nat.pow 2 970)) 1

/-- Half the smallest positive subnormal, `2 ^ (-1075)`: nonzero decimal
values whose magnitude is at most this bound round to zero, which Go
reports as a range error. -/
def float64UnderflowBound : ℚ := mkRat 1 (Nat.pow 2 1075)

def ratAbs (q : ℚ) : ℚ := if q < 0 then -q else q

def goParseFloat (s : String) : Option ℚ :=
  let l := s.data
  let sg : Bool × List Char :=
    match l with
    | '-' :: t => (true, t)
    | '+' :: t => (false, t)
    | t => (false, t)
  let m := goMantissa sg.2 false [] []
  if m.1.length + m.2.1.length = 0 then none
  else
    let eOpt : Option Int :=
      match m.2.2 with
      | [] => some 0
      | 'e' :: t => parseExp t
      | 'E' :: t => parseExp t
      | _ => none
    match eOpt with
    | none => none
    | some e =>
      if underscoreOK l then
        -- The exact value is mantissa · 10 ^ e / 10 ^ (number of
        -- fraction digits), built here from integer arithmetic as
        -- mantissa · 10 ^ max(e,0) / 10 ^ (fractionDigits + max(-e,0))
        -- so that the kernel can normalise it (ℚ multiplication and
        -- division do not reduce in this Mathlib version).
        let num : Int := Int.ofNat (digitsVal (m.1 ++ m.2.1) * Nat.pow 10 e.toNat)
        let den : Nat := Nat.pow 10 (m.2.1.length + (-e).toNat)
        let q0 : ℚ := mkRat num den
        let q : ℚ := if sg.1 then -q0 else q0
        if q = 0 then some 0
        else if float64OverflowBound ≤ ratAbs q then none
        else if ratAbs q ≤ float64UnderflowBound then none
        else some q
      else none

/-! ### checkFileLoudness (main.go lines 153-188)

float64 is modelled as ℚ; the booleans, the returned loudness string,
and the error are as in the source.  `err` is `some msg` for the
`errors.New("REGEX PARSE ERROR")` value and `none` for `nil`.  In the
source the guard is `len(result) > 0 && len(result[0]) > 0`; each entry
of `FindAllStringSubmatch`'s result has length 2 (full match plus one
group), so the guard is equivalent to the match list being nonempty,
i.e. to `getLast?` producing a value. -/

structure LoudCheck where
  passed : Bool
  loudness : String
  adjustment : ℚ
  err : Option String
deriving DecidableEq

/-- The body run on the captured string of the last match (main.go
lines 165-184): parse it; on parse failure degrade to a non-failing
`false/""/0.0` result; otherwise compare against the selected
standard's band and compute the adjustment. -/
def evalCapture (integratedLoudness : String) (std : Bool) : LoudCheck :=
  match goParseFloat integratedLoudness with
  | none => ⟨false, "", 0, none⟩
  | some v =>
    if std then
      if -24 ≤ v ∧ v ≤ -22 then ⟨true, integratedLoudness, 0, none⟩
      else ⟨false, integratedLoudness, -23 - v, none⟩
    else
      if -26 ≤ v ∧ v ≤ -22 then ⟨true, integratedLoudness, 0, none⟩
      else ⟨false, integratedLoudness, -24 - v, none⟩

def checkFileLoudness (ffmpegResults : String) (std : Bool) : LoudCheck :=
  match (matchesOf ffmpegResults).getLast? with
  | some integratedLoudness => evalCapture integratedLoudness std
  | none => ⟨false, "", 0, some "REGEX PARSE ERROR"⟩

/-! ### Audio stream selection (main.go lines 216-237)

Only the stream fields read by the loop are carried (`codecType` for
the filter and the four copied parameters); the remaining descriptive
fields of the Go struct are never read by the program's decision logic.
`channels` is a float64 in the struct and is modelled as ℚ. -/

structure mediaStream where
  codecName : String
  bitRate : String
  codecType : String
  sampleRate : String
  channels : ℚ
deriving DecidableEq

structure audioSelection where
  acodec : String
  audioBitRate : String
  audioChannels : ℚ
  audioSampleRate : String
deriving DecidableEq

/-- The zero values of the four selection variables declared in
main.go lines 216-221. -/
def zeroSelection : audioSelection := ⟨"", "", 0, ""⟩

/-- One iteration of the `for _, stream := range m.streams` loop: a
stream whose `codecType` is "audio" overwrites all four variables. -/
def selStep (sel : audioSelection) (stream : mediaStream) : audioSelection :=
  if stream.codecType == "audio" then
    ⟨stream.codecName, stream.bitRate, stream.channels, stream.sampleRate⟩
  else sel

/-- The selection loop of main.go lines 223-237. -/
def selectAudio (streams : List mediaStream) : audioSelection :=
  streams.foldl selStep zeroSelection

/-! ### The media struct of main.go lines 36-91 and encoding/json

Go identifiers transcribed from the declaration of `media` in
src/main.go (top-level fields, stream fields, format fields and the
fields of both nested `tags` structs). -/

def mediaFieldIdents : List String :=
  ["streams", "format",
   "codecName", "bitRate", "durationTs", "codecType", "codecTimeBase",
   "profile", "tags", "language", "majorBrand", "minorVersion",
   "compatibleBrands", "handlerName", "duration", "index",
   "sampleAspectRatio", "codecTag", "codecTagString", "startPts",
   "sampleRate", "nbFrames", "avgFrameRate", "codecLongName",
   "displayAspectRatio", "level", "hasBFrames", "pixFmt", "timeBase",
   "height", "bitsPerSample", "width", "sampleFmt", "startTime",
   "channels", "rFrameRate",
   "formatName", "formatLongName", "nbStreams", "size", "filename"]

/-- A Go identifier is exported iff its first character is upper case. -/
def goIdentExported (s : String) : Bool :=
  match s.data with
  | c :: _ => c.isUpper
  | [] => false

/-- Modelled from Go's encoding/json semantics: `json.Unmarshal` can
set a struct field only when the field is exported; an unexported field
is left at its zero value (for the slice field `streams` of `media`,
the nil slice, i.e. the empty list).  The parameter `parsed` stands for
the stream list the probe report describes. -/
def unmarshalledStreams (parsed : List mediaStream) : List mediaStream :=
  if goIdentExported "streams" then parsed else []

/-- The audio parameters main.go ends up with for a probe report:
unmarshal into `media`, then run the selection loop. -/
def selectedAudioOfReport (parsed : List mediaStream) : audioSelection :=
  selectAudio (unmarshalledStreams parsed)

/-! ### Go's `path` package (slash-separated, lexical)

`Clean`, `Split`/`Dir`, `Base`, `Ext` and `Join`, embedded over
character lists, as used by main.go lines 260-264. -/

def splitOnChar (sep : Char) : List Char → List (List Char)
  | [] => [[]]
  | c :: t =>
    if c = sep then [] :: splitOnChar sep t
    else
      match splitOnChar sep t with
      | [] => [[c]]
      | h :: r => (c :: h) :: r

def joinWithChar (sep : Char) : List (List Char) → List Char
  | [] => []
  | [x] => x
  | x :: y :: r => x ++ sep :: joinWithChar sep (y :: r)

/-- One step of `path.Clean`'s element processing: drop empty and `.`
elements; `..` pops a poppable stack entry, is dropped at the root of a
rooted path, and is kept otherwise. -/
def cleanStep (rooted : Bool) (stack : List (List Char)) (e : List Char) :
    List (List Char) :=
  if e = [] ∨ e = ['.'] then stack
  else if e = ['.', '.'] then
    match stack with
    | [] => if rooted then [] else [e]
    | a :: rest => if a = ['.', '.'] then e :: stack else rest
  else e :: stack

def cleanChars (p : List Char) : List Char :=
  match p with
  | [] => ['.']
  | c :: _ =>
    let rooted := c == '/'
    let stack := ((splitOnChar '/' p).foldl (cleanStep rooted) []).reverse
    let body := joinWithChar '/' stack
    if rooted then '/' :: body
    else if body = [] then ['.'] else body

/-- `path.Dir`: everything up to and including the final slash, cleaned.
Without a slash the directory part is empty and cleans to `.`. -/
def dirChars (p : List Char) : List Char :=
  let afterLen := (p.reverse.takeWhile (fun c => c != '/')).length
  cleanChars (p.take (p.length - afterLen))

/-- `path.Base`: strip trailing slashes, keep the part after the final
slash; empty input gives `.`, an all-slash input gives `/`. -/
def baseChars (p : List Char) : List Char :=
  match p with
  | [] => ['.']
  | _ =>
    let q := (p.reverse.dropWhile (fun c => c == '/')).reverse
    let r := (splitOnChar '/' q).getLastD []
    if r = [] then ['/'] else r

/-- Scan for `path.Ext`: walk from the end; a dot yields the suffix
from that dot, a slash (or running out) yields the empty extension. -/
def extScan : List Char → List Char → List Char
  | [], _ => []
  | c :: t, acc =>
    if c = '/' then []
    else if c = '.' then c :: acc
    else extScan t (c :: acc)

def extChars (p : List Char) : List Char := extScan p.reverse []

/-- `path.Join` of two elements: drop empty elements, join the rest
with a slash and clean; all-empty input stays empty. -/
def joinChars (a b : List Char) : List Char :=
  match [a, b].filter (fun e => e != []) with
  | [] => []
  | parts => cleanChars (joinWithChar '/' parts)

/-- The output path of main.go lines 260-264:
`path.Join(path.Dir(p), fmt.Sprintf("%s-fixedAudio%s",
strings.Split(path.Base(p), ".")[0], path.Ext(p)))`.  `strings.Split`
never returns an empty slice, so indexing with 0 is total; `headD`
mirrors that. -/
def outfileOf (p : String) : String :=
  let fname := baseChars p.data
  let fdir := dirChars p.data
  let fExt := extChars p.data
  String.mk (joinChars fdir
    ((splitOnChar '.' fname).headD [] ++ "-fixedAudio".data ++ fExt))

/-! ### fmt's %.1f (main.go lines 257 and 329)

Go prints the exact value of the float rounded to one fractional digit,
ties to even, with the sign of the value.  Over the exact rationals of
this model: round `q·10` to an integer (half to even) and print
`sign`, `|n| / 10`, `.`, `|n| mod 10`.  Every adjustment the program
can compute is an integer multiple of 1/10 (captures carry at most one
fractional digit and no negative exponent), so ties and signed zeros
cannot occur on reachable values. -/

def roundTenthsHalfEven (q : ℚ) : Int :=
  let t : Int := 10 * q.num
  let d : Int := Int.ofNat q.den
  let f : Int := Int.ediv t d
  let r : Int := t - f * d
  if 2 * r < d then f
  else if d < 2 * r then f + 1
  else if f % 2 = 0 then f else f + 1

def fmtDotOne (q : ℚ) : String :=
  let n := roundTenthsHalfEven q
  let sgn := if n < 0 ∨ (n = 0 ∧ q < 0) then "-" else ""
  sgn ++ toString (n.natAbs / 10) ++ "." ++ toString (n.natAbs % 10)

/-- main.go line 257: `fmt.Sprintf("%.1fdB", adjustment)`. -/
def recommendedAdjustmentString (adjustment : ℚ) : String :=
  fmtDotOne adjustment ++ "dB"

/-- main.go line 329: `fmt.Sprintf("volume=volume=%s",
mf.recommendedAdjustmentString)`. -/
def volumeFilterArg (adjustment : ℚ) : String :=
  "volume=volume=" ++ recommendedAdjustmentString adjustment

/-! ### The pattern as the specification words it

The specification describes the recognizer as
`i:\s*(-?\d+\.\d)\s*LUFS`, case-insensitively: a *literal* decimal
point inside the group and *optional* whitespace before `LUFS`.  This
matcher follows those words.  Both the literal dot and the trailing
`\s*` (whose maximal run is forced, since the following required
character is a digit resp. `l`) make the match at a position fully
deterministic. -/
def specMatchAt (l : List Char) : Option (List Char × List Char) :=
  match l with
  | 'i' :: ':' :: rest =>
    let rest1 := rest.dropWhile isGoSpace
    let sg : Bool × List Char :=
      match rest1 with
      | '-' :: t => (true, t)
      | t => (false, t)
    let ds := sg.2.takeWhile isGoDigit
    if ds = [] then none
    else
      match sg.2.drop ds.length with
      | '.' :: d :: r =>
        if isGoDigit d then
          match r.dropWhile isGoSpace with
          | 'l' :: 'u' :: 'f' :: 's' :: r3 =>
            some ((if sg.1 then ['-'] else []) ++ ds ++ ['.', d], r3)
          | _ => none
        else none
      | _ => none
  | _ => none

def specMatchesOf (s : String) : List String :=
  ((findAllAuxWith specMatchAt (lowerChars s).length) (lowerChars s)).map
    (fun g => String.mk g)

/-! ### The amended pattern

Amended wording for claim C6: `i:`, optional whitespace, an optional
minus, a nonempty digit sequence, *any single non-newline character*, a
digit (the capture being minus + digits + character + digit), then
*exactly one* whitespace character, then `LUFS`, case-insensitively;
the digit sequence is the longest one that leaves a valid tail.  This
recognizer follows these words directly: the digit count is selected as
the *maximum* viable one, in contrast to the engine-style descending
backtracking of `tryK`. -/
def amendedTailOk (l : List Char) (k : Nat) : Bool :=
  decide (1 ≤ k) && (l.take k).all isGoDigit &&
    (match l.drop k with
     | c :: d :: s :: 'l' :: 'u' :: 'f' :: 's' :: _ =>
       (c != '\n') && isGoDigit d && isGoSpace s
     | _ => false)

def amendedBestK (l : List Char) : Option Nat :=
  ((List.range (l.length + 1)).filter (fun k => amendedTailOk l k)).getLast?

def amendedGroupFrom (l : List Char) : Option (List Char × List Char) :=
  match amendedBestK l with
  | some k => some (l.take (k + 2), (l.drop k).drop 7)
  | none => none

def amendedMatchAt : List Char → Option (List Char × List Char) :=
  patMatchAtWith amendedGroupFrom

def amendedMatchesOf (s : String) : List String :=
  ((findAllAuxWith amendedMatchAt (lowerChars s).length) (lowerChars s)).map
    (fun g => String.mk g)

/-! ## Supporting lemmas -/

theorem checkFileLoudness_eq_evalCapture (text : String) (std : Bool)
    (g : String) (hg : (matchesOf text).getLast? = some g) :
    checkFileLoudness text std = evalCapture g std := by
  unfold checkFileLoudness
  rw [hg]

theorem evalCapture_err_none (g : String) (std : Bool) :
    (evalCapture g std).err = none := by
  unfold evalCapture
  rcases hv : goParseFloat g with _ | v <;> simp only [hv]
  split <;> split <;> rfl

theorem evalCapture_ebu (g : String) (v : ℚ) (hv : goParseFloat g = some v) :
    evalCapture g true =
      if -24 ≤ v ∧ v ≤ -22 then ⟨true, g, 0, none⟩
      else ⟨false, g, -23 - v, none⟩ := by
  unfold evalCapture
  rw [hv]
  rfl

theorem evalCapture_atsc (g : String) (v : ℚ) (hv : goParseFloat g = some v) :
    evalCapture g false =
      if -26 ≤ v ∧ v ≤ -22 then ⟨true, g, 0, none⟩
      else ⟨false, g, -24 - v, none⟩ := by
  unfold evalCapture
  rw [hv]
  rfl

/-! ## Claim theorems -/

/-- C1: for every diagnostic text whose last integrated-loudness match
parses as a float value v, when the standard flag is true (EBU R128)
the compliance check returns passed = true and adjustment = 0.0 exactly
when v lies in the closed interval [-24, -22], and otherwise returns
passed = false and adjustment = -23 - v, with no error in either
case. -/
theorem checkFileLoudness_ebu_band (text g : String) (v : ℚ)
    (hg : (matchesOf text).getLast? = some g)
    (hv : goParseFloat g = some v) :
    checkFileLoudness text true =
      if -24 ≤ v ∧ v ≤ -22 then ⟨true, g, 0, none⟩
      else ⟨false, g, -23 - v, none⟩ := by
  rw [checkFileLoudness_eq_evalCapture text true g hg]
  exact evalCapture_ebu g v hv

theorem checkFileLoudness_ebu_band_witness :
    (matchesOf "i: -19.4 LUFS").getLast? = some "-19.4" ∧
    goParseFloat "-19.4" = some (mkRat (-97) 5) ∧
    checkFileLoudness "i: -19.4 LUFS" true =
      ⟨false, "-19.4", -23 - mkRat (-97) 5, none⟩ := by
  refine ⟨by decide, by decide, ?_⟩
  rw [checkFileLoudness_ebu_band "i: -19.4 LUFS" "-19.4" (mkRat (-97) 5)
    (by decide) (by decide)]
  rw [if_neg (by decide)]

/-- C2: for every diagnostic text whose last integrated-loudness match
parses as a float value v, when the standard flag is false (ATSC A/85)
the compliance check returns passed = true and adjustment = 0.0 exactly
when v lies in the closed interval [-26, -22], and otherwise returns
passed = false and adjustment = -24 - v, with no error in either
case. -/
theorem checkFileLoudness_atsc_band (text g : String) (v : ℚ)
    (hg : (matchesOf text).getLast? = some g)
    (hv : goParseFloat g = some v) :
    checkFileLoudness text false =
      if -26 ≤ v ∧ v ≤ -22 then ⟨true, g, 0, none⟩
      else ⟨false, g, -24 - v, none⟩ := by
  rw [checkFileLoudness_eq_evalCapture text false g hg]
  exact evalCapture_atsc g v hv

theorem checkFileLoudness_atsc_band_witness :
    (matchesOf "i: -30.0 LUFS").getLast? = some "-30.0" ∧
    goParseFloat "-30.0" = some (-30) ∧
    checkFileLoudness "i: -30.0 LUFS" false =
      ⟨false, "-30.0", -24 - (-30 : ℚ), none⟩ := by
  refine ⟨by decide, by decide, ?_⟩
  rw [checkFileLoudness_atsc_band "i: -30.0 LUFS" "-30.0" (-30)
    (by decide) (by decide)]
  rw [if_neg (by decide)]

/-- C3: for every diagnostic text with two or more integrated-loudness
matches, the loudness value used by the compliance check (and returned
as the loudness string) is taken from the last match in document order:
the result is a function of the last captured string alone, so all
earlier matches are ignored. -/
theorem checkFileLoudness_last_match (text : String) (std : Bool)
    (pre : List String) (g : String)
    (hm : matchesOf text = pre ++ [g]) (hpre : 1 ≤ pre.length) :
    checkFileLoudness text std = evalCapture g std := by
  refine checkFileLoudness_eq_evalCapture text std g ?_
  rw [hm, List.getLast?_concat]

theorem checkFileLoudness_last_match_witness :
    matchesOf "i: -30.0 lufs then i: -19.4 lufs" = ["-30.0"] ++ ["-19.4"] ∧
    checkFileLoudness "i: -30.0 lufs then i: -19.4 lufs" true =
      evalCapture "-19.4" true := by
  exact ⟨by decide,
    checkFileLoudness_last_match "i: -30.0 lufs then i: -19.4 lufs" true
      ["-30.0"] "-19.4" (by decide) (by decide)⟩

/-- C4: the compliance check returns a non-nil error exactly when the
diagnostic text contains zero integrated-loudness matches, and in that
case it returns passed = false, loudness = "", adjustment = 0.0
together with the "REGEX PARSE ERROR" error; no other input condition
makes the check error. -/
theorem checkFileLoudness_error_iff_no_match (text : String) (std : Bool) :
    ((checkFileLoudness text std).err ≠ none ↔ matchesOf text = []) ∧
    (matchesOf text = [] →
      checkFileLoudness text std =
        ⟨false, "", 0, some "REGEX PARSE ERROR"⟩) := by
  unfold checkFileLoudness
  rcases hm : (matchesOf text).getLast? with _ | g
  · rw [List.getLast?_eq_none_iff] at hm
    exact ⟨⟨fun _ => hm, fun _ => by simp⟩, fun _ => rfl⟩
  · constructor
    · constructor
      · intro h
        exact absurd (evalCapture_err_none g std) h
      · intro h
        rw [h] at hm
        exact absurd hm (by simp)
    · intro h
      rw [h] at hm
      exact absurd hm (by simp)

theorem checkFileLoudness_error_iff_no_match_witness :
    checkFileLoudness "no loudness here" true =
      ⟨false, "", 0, some "REGEX PARSE ERROR"⟩ ∧
    (checkFileLoudness "i: -23.0 lufs" true).err = none := by
  constructor
  · exact (checkFileLoudness_error_iff_no_match "no loudness here" true).2
      (by decide)
  · have h := (checkFileLoudness_error_iff_no_match "i: -23.0 lufs" true).1
    by_contra hc
    exact absurd ((h.mp hc)) (by decide)

/-- C5: for every diagnostic text with at least one integrated-loudness
match whose last captured numeric text fails to parse as a float, the
compliance check returns passed = false, loudness = "",
adjustment = 0.0 and a nil error (degraded, not the no-match hard
failure). -/
theorem checkFileLoudness_unparseable_degrades (text : String) (std : Bool)
    (g : String) (hg : (matchesOf text).getLast? = some g)
    (hv : goParseFloat g = none) :
    checkFileLoudness text std = ⟨false, "", 0, none⟩ := by
  rw [checkFileLoudness_eq_evalCapture text std g hg]
  unfold evalCapture
  rw [hv]

theorem checkFileLoudness_unparseable_degrades_witness :
    (matchesOf "i: 1,3 lufs").getLast? = some "1,3" ∧
    goParseFloat "1,3" = none ∧
    checkFileLoudness "i: 1,3 lufs" true = ⟨false, "", 0, none⟩ := by
  exact ⟨by decide, by decide,
    checkFileLoudness_unparseable_degrades "i: 1,3 lufs" true "1,3"
      (by decide) (by decide)⟩

theorem selStep_foldl (l : List mediaStream) (acc : audioSelection) :
    l.foldl selStep acc =
      match (l.filter (fun s => s.codecType == "audio")).getLast? with
      | some s => ⟨s.codecName, s.bitRate, s.channels, s.sampleRate⟩
      | none => acc := by
  induction l using List.reverseRecOn generalizing acc with
  | nil => rfl
  | append_singleton t a ih =>
    rw [List.foldl_append, List.filter_append, List.foldl_cons, List.foldl_nil]
    by_cases h : (a.codecType == "audio") = true
    · have hf : List.filter (fun s => s.codecType == "audio") [a] = [a] := by
        simp [h]
      rw [hf, List.getLast?_concat]
      unfold selStep
      rw [if_pos h]
    · have hf : List.filter (fun s => s.codecType == "audio") [a] = [] := by
        simp [List.filter_cons, h]
      rw [hf, List.append_nil]
      unfold selStep
      rw [if_neg h]
      exact ih acc

/-- C7: the audio-stream selection scans the stream sequence in order
and overwrites the selection with each audio stream's codec, bitrate,
sample rate and channel count, so the last stream with
codecType = "audio" wins; with zero audio streams all four parameters
remain at their zero values and no error is raised. -/
theorem selectAudio_last_audio_wins :
    ∀ streams : List mediaStream,
      selectAudio streams =
        match (streams.filter (fun s => s.codecType == "audio")).getLast? with
        | some s => ⟨s.codecName, s.bitRate, s.channels, s.sampleRate⟩
        | none => zeroSelection := by
  intro streams
  exact selStep_foldl streams zeroSelection

/-- C8: every field of the `media` struct in src/main.go (including the
nested streams, format and tags structs) is unexported, so JSON
unmarshalling leaves the struct at its zero value and the selected
audio parameters are the zero values ("", "", 0, "") for every probe
report. -/
theorem media_unexported_zero_selection :
    (mediaFieldIdents.all (fun f => !goIdentExported f)) = true ∧
    ∀ parsed : List mediaStream, selectedAudioOfReport parsed = zeroSelection := by
  refine ⟨by decide, fun parsed => ?_⟩
  unfold selectedAudioOfReport unmarshalledStreams
  rw [if_neg (by decide)]
  rfl

/-- C9: the derived output path joins the input's directory with a base
name built from the first dot-delimited segment of the input's file
name, the literal "-fixedAudio" and the input's (final-dot) extension;
"show.mkv" maps to "show-fixedAudio.mkv" and "a.b.mov" maps to
"a-fixedAudio.mov", losing the ".b" segment. -/
theorem outfile_derivation :
    (∀ p : String,
      outfileOf p =
        String.mk (joinChars (dirChars p.data)
          ((splitOnChar '.' (baseChars p.data)).headD [] ++
            "-fixedAudio".data ++ extChars p.data))) ∧
    outfileOf "show.mkv" = "show-fixedAudio.mkv" ∧
    outfileOf "a.b.mov" = "a-fixedAudio.mov" ∧
    outfileOf "/media/in/show.mkv" = "/media/in/show-fixedAudio.mkv" := by
  exact ⟨fun p => rfl, by decide, by decide, by decide⟩

/-- C10: the gain string placed in the correction plan (and reported as
RecommendedAdjustmentString) is the adjustment formatted as a signed
decimal with exactly one fractional digit followed by "dB" (adjustment
-1.3 yields "-1.3dB"), and it is the string passed to the volume
filter as "volume=volume=" followed by that gain string; on the
pipeline example text "i: -19.4 LUFS" under EBU the plan carries
"-3.6dB". -/
theorem gain_string_format :
    (∀ adj : ℚ, recommendedAdjustmentString adj = fmtDotOne adj ++ "dB") ∧
    (∀ adj : ℚ,
      volumeFilterArg adj = "volume=volume=" ++ recommendedAdjustmentString adj) ∧
    recommendedAdjustmentString (mkRat (-13) 10) = "-1.3dB" ∧
    recommendedAdjustmentString
      ((checkFileLoudness "i: -19.4 LUFS" true).adjustment) = "-3.6dB" := by
  refine ⟨fun adj => rfl, fun adj => rfl, by decide, ?_⟩
  rw [checkFileLoudness_eq_evalCapture "i: -19.4 LUFS" true "-19.4" (by decide)]
  have h1 : evalCapture "-19.4" true =
      ⟨false, "-19.4", -23 - mkRat (-97) 5, none⟩ := by
    rw [evalCapture_ebu "-19.4" (mkRat (-97) 5) (by decide)]
    rw [if_neg (by decide)]
  rw [h1]
  have h2 : (-23 : ℚ) - mkRat (-97) 5 = mkRat (-18) 5 := by
    rw [Rat.mkRat_eq_div, Rat.mkRat_eq_div]
    norm_num
  show recommendedAdjustmentString ((-23 : ℚ) - mkRat (-97) 5) = "-3.6dB"
  rw [h2]
  decide

/-! ## Lemmas relating the source regex to the amended description -/

theorem takeWhile_len_le (p : Char → Bool) :
    ∀ l : List Char, (l.takeWhile p).length ≤ l.length := by
  intro l
  induction l with
  | nil => simp
  | cons c t ih =>
    by_cases hc : p c = true
    · rw [List.takeWhile_cons_of_pos hc]
      simpa using ih
    · rw [List.takeWhile_cons_of_neg (by simpa using hc)]
      simp

theorem take_all_le_takeWhile (p : Char → Bool) :
    ∀ (l : List Char) (k : Nat), k ≤ l.length → (l.take k).all p = true →
      k ≤ (l.takeWhile p).length := by
  intro l
  induction l with
  | nil => intro k hk _; simpa using hk
  | cons c t ih =>
    intro k hk hall
    cases k with
    | zero => exact Nat.zero_le _
    | succ k =>
      rw [List.take_succ_cons, List.all_cons, Bool.and_eq_true] at hall
      obtain ⟨hc, ht⟩ := hall
      rw [List.takeWhile_cons_of_pos hc]
      simp only [List.length_cons]
      have hlen : k ≤ t.length := by
        simp only [List.length_cons] at hk
        omega
      have := ih k hlen ht
      omega

theorem filter_range_shrink (p : Nat → Bool) :
    ∀ (a b : Nat), b ≤ a → (∀ k, b ≤ k → p k = false) →
      (List.range a).filter p = (List.range b).filter p := by
  intro a
  induction a with
  | zero =>
    intro b hba _
    have hb : b = 0 := Nat.le_zero.mp hba
    rw [hb]
  | succ a ih =>
    intro b hba h
    by_cases hb : b = a + 1
    · rw [hb]
    · have hble : b ≤ a := by omega
      rw [List.range_succ, List.filter_append]
      have hnil : List.filter p [a] = [] := by simp [h a hble]
      rw [hnil, List.append_nil]
      exact ih b hble h

theorem checkTail_eq_amended (l : List Char) (k : Nat) (hk : 1 ≤ k) :
    checkTail l k =
      if amendedTailOk l k = true then some (l.take (k + 2), (l.drop k).drop 7)
      else none := by
  have hdec : decide (1 ≤ k) = true := decide_eq_true hk
  unfold checkTail amendedTailOk
  rw [hdec, Bool.true_and]
  by_cases hd : ((l.take k).all isGoDigit) = true
  · rw [if_pos hd, hd, Bool.true_and]
    split
    next c d s rest heq =>
      rw [heq]
      by_cases h1 : c = '\n' <;> by_cases h2 : isGoDigit d = true <;>
        by_cases h3 : isGoSpace s = true <;>
        simp [h1, h2, h3]
    next hne => rfl
  · have hd0 : ((l.take k).all isGoDigit) = false := by
      cases hx : (l.take k).all isGoDigit
      · rfl
      · exact absurd hx hd
    rw [if_neg hd, hd0, Bool.false_and]
    rfl

theorem amendedTailOk_le (l : List Char) (k : Nat)
    (h : amendedTailOk l k = true) : k ≤ (l.takeWhile isGoDigit).length := by
  unfold amendedTailOk at h
  rw [Bool.and_eq_true, Bool.and_eq_true] at h
  obtain ⟨⟨h1, h2⟩, h3⟩ := h
  have hkl : k ≤ l.length := by
    by_contra hgt
    push_neg at hgt
    have hnil : l.drop k = [] := List.drop_eq_nil_of_le (by omega)
    rw [hnil] at h3
    simp at h3
  exact take_all_le_takeWhile isGoDigit l k hkl h2

theorem tryK_eq_amended (l : List Char) :
    ∀ m : Nat,
      tryK l m =
        match ((List.range (m + 1)).filter
            (fun k => amendedTailOk l k)).getLast? with
        | some k => some (l.take (k + 2), (l.drop k).drop 7)
        | none => none := by
  intro m
  induction m with
  | zero =>
    have h0 : amendedTailOk l 0 = false := rfl
    rw [List.range_succ, List.range_zero, List.nil_append]
    simp [tryK, h0]
  | succ m ih =>
    rw [List.range_succ, List.filter_append]
    by_cases h : amendedTailOk l (m + 1) = true
    · have hone : List.filter (fun k => amendedTailOk l k) [m + 1] = [m + 1] := by
        simp [h]
      rw [hone, List.getLast?_concat]
      unfold tryK
      rw [checkTail_eq_amended l (m + 1) (by omega), if_pos h]
    · have hF : amendedTailOk l (m + 1) = false := by
        cases hx : amendedTailOk l (m + 1)
        · rfl
        · exact absurd hx h
      have hnil : List.filter (fun k => amendedTailOk l k) [m + 1] = [] := by
        simp [hF]
      rw [hnil, List.append_nil]
      unfold tryK
      rw [checkTail_eq_amended l (m + 1) (by omega), if_neg h]
      exact ih

theorem matchGroupFrom_eq_amended (l : List Char) :
    matchGroupFrom l = amendedGroupFrom l := by
  unfold matchGroupFrom amendedGroupFrom amendedBestK
  rw [tryK_eq_amended]
  have hfe :
      (List.range ((l.takeWhile isGoDigit).length + 1)).filter
          (fun k => amendedTailOk l k) =
        (List.range (l.length + 1)).filter (fun k => amendedTailOk l k) := by
    symm
    apply filter_range_shrink
    · have := takeWhile_len_le isGoDigit l
      omega
    · intro k hk
      cases hx : amendedTailOk l k
      · rfl
      · have := amendedTailOk_le l k hx
        omega
  rw [hfe]

theorem patMatchAtWith_congr
    (f g : List Char → Option (List Char × List Char))
    (h : ∀ l, f l = g l) (l : List Char) :
    patMatchAtWith f l = patMatchAtWith g l := by
  unfold patMatchAtWith
  split
  next rest =>
    split
    next rest2 heq => rw [h rest2]
    next rest1 hne heq => exact h (rest.dropWhile isGoSpace)
  next => rfl

theorem findAllAuxWith_congr
    (f g : List Char → Option (List Char × List Char))
    (h : ∀ l, f l = g l) :
    ∀ (fuel : Nat) (l : List Char),
      findAllAuxWith f fuel l = findAllAuxWith g fuel l := by
  intro fuel
  induction fuel with
  | zero => intro l; rfl
  | succ fuel ih =>
    intro l
    cases l with
    | nil => rfl
    | cons a t =>
      unfold findAllAuxWith
      rw [h (a :: t)]
      cases hg : g (a :: t) with
      | some gr =>
        simp only [hg]
        rw [ih gr.2]
      | none =>
        simp only [hg]
        exact ih t

theorem matchPatAt_eq_amended (l : List Char) :
    matchPatAt l = amendedMatchAt l :=
  patMatchAtWith_congr matchGroupFrom amendedGroupFrom
    matchGroupFrom_eq_amended l

/-- C6 is false as stated: the source pattern
`(?i)i:\s*(-\d+.\d|\d+.\d)\sLUFS` has an unescaped dot (matching any
non-newline character, not only a literal decimal point) and exactly
one mandatory whitespace before LUFS (not optional whitespace), so the
recognizer and the claimed pattern `i:\s*(-?\d+\.\d)\s*LUFS` disagree
in both directions on concrete texts. -/
theorem loudness_pattern_counterexample :
    matchesOf "i: 1x2 LUFS" = ["1x2"] ∧
    specMatchesOf "i: 1x2 LUFS" = [] ∧
    matchesOf "i: -23.0LUFS" = [] ∧
    specMatchesOf "i: -23.0LUFS" = ["-23.0"] ∧
    matchesOf "i: -23.0  LUFS" = [] ∧
    specMatchesOf "i: -23.0  LUFS" = ["-23.0"] := by
  exact ⟨by decide, by decide, by decide, by decide, by decide, by decide⟩

/-- C6 (amended): a substring of the diagnostic text is recognized as
an integrated-loudness measurement if and only if it matches, case-
insensitively, "i:", optional whitespace, an optionally-negated
nonempty digit sequence (the longest viable one), then any single
non-newline character, then one digit — the capture group — followed
by exactly one whitespace character and "LUFS"; no other substring is
treated as a match.  The code matcher equals the recognizer written
from that description on every text. -/
theorem loudness_pattern_amended (text : String) :
    matchesOf text = amendedMatchesOf text := by
  unfold matchesOf amendedMatchesOf findAllMatches
  rw [findAllAuxWith_congr matchPatAt amendedMatchAt matchPatAt_eq_amended
    (lowerChars text).length (lowerChars text)]

/-! ## Soundness of the scan fuel

A successful match consumes the whole `i:` prefix, the group and the
`lufs` literal, so the remainder is strictly shorter than the input;
hence `findAllAuxWith` with fuel equal to the subject length computes
the same list as with any larger fuel, and the fuel never cuts the
scan short. -/

theorem dropWhile_len_le (p : Char → Bool) :
    ∀ l : List Char, (l.dropWhile p).length ≤ l.length := by
  intro l
  induction l with
  | nil => simp
  | cons c t ih =>
    by_cases hc : p c = true
    · rw [List.dropWhile_cons_of_pos hc]
      simp only [List.length_cons]
      omega
    · rw [List.dropWhile_cons_of_neg (by simpa using hc)]

theorem checkTail_rest_len (l : List Char) (k : Nat)
    (r : List Char × List Char) (h : checkTail l k = some r) :
    r.2.length + 7 ≤ l.length := by
  unfold checkTail at h
  by_cases hd : ((l.take k).all isGoDigit) = true
  · rw [if_pos hd] at h
    split at h
    next c d s rest heq =>
      split at h
      · cases h
        have h1 : (l.drop k).length = rest.length + 7 := by
          rw [heq]
          simp only [List.length_cons]
        have h2 : (l.drop k).length ≤ l.length := by
          rw [List.length_drop]
          omega
        show rest.length + 7 ≤ l.length
        omega
      · exact Option.noConfusion h
    next => exact Option.noConfusion h
  · rw [if_neg hd] at h
    exact Option.noConfusion h

theorem tryK_rest_len (l : List Char) :
    ∀ (m : Nat) (r : List Char × List Char), tryK l m = some r →
      r.2.length + 7 ≤ l.length := by
  intro m
  induction m with
  | zero => intro r h; exact Option.noConfusion h
  | succ m ih =>
    intro r h
    unfold tryK at h
    cases hc : checkTail l (m + 1) with
    | some r2 =>
      rw [hc] at h
      cases h
      exact checkTail_rest_len l (m + 1) r hc
    | none =>
      rw [hc] at h
      exact ih r h

theorem matchGroupFrom_rest_len (l : List Char) (r : List Char × List Char)
    (h : matchGroupFrom l = some r) : r.2.length + 7 ≤ l.length :=
  tryK_rest_len l ((l.takeWhile isGoDigit).length) r h

theorem patMatchAtWith_rest_len
    (grp : List Char → Option (List Char × List Char))
    (hg : ∀ l r, grp l = some r → r.2.length + 7 ≤ l.length) :
    ∀ (l : List Char) (gr : List Char × List Char),
      patMatchAtWith grp l = some gr → gr.2.length < l.length := by
  intro l gr h
  unfold patMatchAtWith at h
  split at h
  next rest =>
    have hdw : (rest.dropWhile isGoSpace).length ≤ rest.length :=
      dropWhile_len_le isGoSpace rest
    split at h
    next rest2 heq =>
      have hlen2 : (rest.dropWhile isGoSpace).length = rest2.length + 1 := by
        rw [heq, List.length_cons]
      cases hgr : grp rest2 with
      | some r =>
        rw [hgr] at h
        cases h
        have := hg rest2 r hgr
        simp only [List.length_cons]
        omega
      | none =>
        rw [hgr] at h
        exact Option.noConfusion h
    next =>
      have := hg (rest.dropWhile isGoSpace) gr h
      simp only [List.length_cons]
      omega
  next => exact Option.noConfusion h

theorem matchPatAt_consumes (l : List Char) (gr : List Char × List Char)
    (h : matchPatAt l = some gr) : gr.2.length < l.length :=
  patMatchAtWith_rest_len matchGroupFrom matchGroupFrom_rest_len l gr h

theorem findAllAuxWith_fuel
    (m : List Char → Option (List Char × List Char))
    (hm : ∀ l gr, m l = some gr → gr.2.length < l.length) :
    ∀ (f1 f2 : Nat) (l : List Char), l.length ≤ f1 → l.length ≤ f2 →
      findAllAuxWith m f1 l = findAllAuxWith m f2 l := by
  intro f1
  induction f1 with
  | zero =>
    intro f2 l h1 _
    have hnil : l = [] := List.length_eq_zero.mp (Nat.le_zero.mp h1)
    subst hnil
    cases f2 <;> rfl
  | succ f1 ih =>
    intro f2 l h1 h2
    cases l with
    | nil => cases f2 <;> rfl
    | cons a t =>
      cases f2 with
      | zero => simp at h2
      | succ f2 =>
        unfold findAllAuxWith
        cases hg : m (a :: t) with
        | some gr =>
          simp only [hg]
          have hlt := hm (a :: t) gr hg
          simp only [List.length_cons] at hlt h1 h2
          rw [ih f2 gr.2 (by omega) (by omega)]
        | none =>
          simp only [hg]
          simp only [List.length_cons] at h1 h2
          exact ih f2 t (by omega) (by omega)

/-- Any fuel at least the subject length computes `findAllMatches`. -/
theorem findAllMatches_fuel (l : List Char) (f : Nat) (hf : l.length ≤ f) :
    findAllAuxWith matchPatAt f l = findAllMatches l :=
  findAllAuxWith_fuel matchPatAt matchPatAt_consumes f l.length l hf
    (Nat.le_refl _)

end Loudfixer
